import Mathlib

/-!
Verification of the segment/selection model, task planner, progress parser and
encode-task executor of the Lossless Video Cutter application.

Times are modelled as exact rationals (`ℚ`); the Python source computes with
floats, and every claim under scrutiny concerns the algorithmic structure of
the code, which is float-representation independent.  Python's stable `sort`
is modelled by `List.insertionSort` (a stable sort); `sorted(key=lambda x: x[0])`
sorts by the first component only, `list.sort()` on pairs sorts
lexicographically, and both are rendered with the corresponding total preorder.
-/

/-- Python's `max(a, b)` on numbers (returns `b` only when `a < b`). -/
def pyMax (a b : ℚ) : ℚ := if a ≤ b then b else a

/-- Python's `min(a, b)` on numbers. -/
def pyMin (a b : ℚ) : ℚ := if a ≤ b then a else b

/-- Python's `abs` on numbers. -/
def pyAbs (a : ℚ) : ℚ := if 0 ≤ a then a else -a

/-- Python's `int(x)` on a float/rational: truncation toward zero.
On nonnegative arguments both branches are floor division of nonnegative
integers, so the rendering is division-convention independent. -/
def pyTrunc (q : ℚ) : ℤ := if 0 ≤ q then q.num / q.den else -((-q).num / (-q).den)

theorem pyMax_eq_max (a b : ℚ) : pyMax a b = max a b := by
  unfold pyMax; rw [max_def]

theorem pyMin_eq_min (a b : ℚ) : pyMin a b = min a b := by
  unfold pyMin; rw [min_def]

theorem pyAbs_eq_abs (a : ℚ) : pyAbs a = |a| := by
  unfold pyAbs
  rcases le_or_lt 0 a with h | h
  · rw [if_pos h, abs_of_nonneg h]
  · rw [if_neg (not_le.mpr h), abs_of_neg h]

theorem pyTrunc_eq_floor {q : ℚ} (h : 0 ≤ q) : pyTrunc q = ⌊q⌋ := by
  unfold pyTrunc
  rw [if_pos h, Rat.floor_def]

/-- Sorting key of `sorted(self.selections, key=lambda x: x[0])`: compare by
range start only. -/
def byStart (a b : ℚ × ℚ) : Prop := a.1 ≤ b.1

instance : DecidableRel byStart := fun a b => by unfold byStart; infer_instance

instance : IsTotal (ℚ × ℚ) byStart := by
  constructor
  intro a b
  exact le_total a.1 b.1

instance : IsTrans (ℚ × ℚ) byStart := by
  constructor
  intro a b c hab hbc
  exact le_trans hab hbc

/-- Ordering used by Python's `list.sort()` on `(start, end)` tuples:
lexicographic comparison. -/
def lexLe (a b : ℚ × ℚ) : Prop := a.1 < b.1 ∨ (a.1 = b.1 ∧ a.2 ≤ b.2)

instance : DecidableRel lexLe := fun a b => by unfold lexLe; infer_instance

instance : IsTotal (ℚ × ℚ) lexLe := by
  constructor
  intro a b
  unfold lexLe
  rcases lt_trichotomy a.1 b.1 with h | h | h
  · exact Or.inl (Or.inl h)
  · rcases le_total a.2 b.2 with h2 | h2
    · exact Or.inl (Or.inr ⟨h, h2⟩)
    · exact Or.inr (Or.inr ⟨h.symm, h2⟩)
  · exact Or.inr (Or.inl h)

instance : IsTrans (ℚ × ℚ) lexLe := by
  constructor
  intro a b c hab hbc
  unfold lexLe at *
  rcases hab with h | ⟨he, h2⟩
  · rcases hbc with h' | ⟨he', _⟩
    · exact Or.inl (h.trans h')
    · exact Or.inl (he' ▸ h)
  · rcases hbc with h' | ⟨he', h2'⟩
    · exact Or.inl (he ▸ h')
    · exact Or.inr ⟨he.trans he', h2.trans h2'⟩

theorem lexLe_imp_byStart {a b : ℚ × ℚ} (h : lexLe a b) : a.1 ≤ b.1 := by
  rcases h with h | ⟨he, _⟩
  · exact le_of_lt h
  · exact le_of_eq he

/-! ## Selection model (`main.py`, `MainWindow`)

State relevant to the selection model: `self.selections` (list of
`(start, end)` pairs, `main.py:46`) and `self.current_selection_start`
(optional pending start, `main.py:47`). -/

structure SelState where
  selections : List (ℚ × ℚ)
  current_selection_start : Option ℚ
deriving DecidableEq

/-- Initial selection state (`main.py:46-47`): no selections, no pending start. -/
def initState : SelState := { selections := [], current_selection_start := none }

/-- Model of `MainWindow.on_begin_selection` (`main.py:531-538`), state transition only:
toggles the pending start (a second press cancels it). -/
def on_begin_selection (st : SelState) (t : ℚ) : SelState :=
  match st.current_selection_start with
  | some _ => { st with current_selection_start := none }
  | none => { st with current_selection_start := some t }

inductive EndResult where
  | noActiveSelection
  | invalidRange
  | ok
deriving DecidableEq

/-- Model of `MainWindow.on_end_selection` (`main.py:540-559`): with no pending start the
handler returns silently; with `t <= start + 0.01` it shows the
"Invalid Selection" warning and returns; otherwise it appends
`(start, t)`, sorts the list with Python `list.sort()` (lexicographic,
stable) and clears the pending start.  The result tag records which of the
three paths was taken. -/
def on_end_selection (st : SelState) (t : ℚ) : SelState × EndResult :=
  match st.current_selection_start with
  | none => (st, EndResult.noActiveSelection)
  | some s =>
    if t ≤ s + 1/100 then (st, EndResult.invalidRange)
    else
      ({ selections := List.insertionSort lexLe (st.selections ++ [(s, t)]),
         current_selection_start := none }, EndResult.ok)

/-- Helper replicating the loop of `on_undo_selection` (`main.py:565-570`):
delete the first range containing `t` (`start <= t <= end`), if any. -/
def delFirstContaining (t : ℚ) : List (ℚ × ℚ) → Option (List (ℚ × ℚ))
  | [] => none
  | r :: rs =>
    if r.1 ≤ t ∧ t ≤ r.2 then some rs
    else (delFirstContaining t rs).map (fun l => r :: l)

/-- Model of `MainWindow.on_undo_selection` (`main.py:561-583`): remove the first range
containing the playhead time; otherwise clear all selections if any exist;
otherwise cancel a pending start if one exists; otherwise do nothing. -/
def on_undo_selection (st : SelState) (t : ℚ) : SelState :=
  match delFirstContaining t st.selections with
  | some sels => { st with selections := sels }
  | none =>
    if st.selections ≠ [] then { st with selections := [] }
    else if st.current_selection_start.isSome then { st with current_selection_start := none }
    else st

inductive SelOp where
  | beginMark (t : ℚ)
  | endMark (t : ℚ)

/-- One user action on the selection model (begin-mark or end-mark). -/
def applySelOp (st : SelState) : SelOp → SelState
  | .beginMark t => on_begin_selection st t
  | .endMark t => (on_end_selection st t).1

/-- Well-formedness of the selection list: sorted (non-strictly) ascending by
start, and every range has positive length. -/
def SelWF (st : SelState) : Prop :=
  st.selections.Sorted (fun a b => a.1 ≤ b.1) ∧ ∀ r ∈ st.selections, r.1 < r.2

theorem selWF_on_begin (st : SelState) (t : ℚ) (h : SelWF st) :
    SelWF (on_begin_selection st t) := by
  unfold on_begin_selection
  cases st.current_selection_start <;> exact h

theorem selWF_on_end (st : SelState) (t : ℚ) (h : SelWF st) :
    SelWF (on_end_selection st t).1 := by
  obtain ⟨sels, pend⟩ := st
  cases pend with
  | none => exact h
  | some s =>
    unfold on_end_selection
    dsimp only
    by_cases hle : t ≤ s + 1/100
    · rw [if_pos hle]; exact h
    · rw [if_neg hle]
      constructor
      · exact List.Pairwise.imp lexLe_imp_byStart
          (List.sorted_insertionSort lexLe (sels ++ [(s, t)]))
      · intro r hr
        have hmem : r ∈ sels ++ [(s, t)] :=
          (List.perm_insertionSort lexLe (sels ++ [(s, t)])).mem_iff.mp hr
        rcases List.mem_append.mp hmem with hm | hm
        · exact h.2 r hm
        · have : r = (s, t) := List.mem_singleton.mp hm
          subst this
          have := lt_of_not_le hle
          show s < t
          linarith

theorem selWF_applyOp (st : SelState) (op : SelOp) (h : SelWF st) :
    SelWF (applySelOp st op) := by
  cases op with
  | beginMark t => exact selWF_on_begin st t h
  | endMark t => exact selWF_on_end st t h

theorem selWF_foldl (ops : List SelOp) :
    ∀ st : SelState, SelWF st → SelWF (ops.foldl applySelOp st) := by
  induction ops with
  | nil => intro st h; exact h
  | cons op rest ih =>
    intro st h
    exact ih (applySelOp st op) (selWF_applyOp st op h)

/-- C6: for every sequence of beginMark and endMark calls starting from the
empty selection model, after each successful endMark (indeed after every
call) the selection set is sorted ascending by start and every member range
`(start, end)` satisfies `end > start`. -/
theorem C6_selection_invariant (ops : List SelOp) :
    ((ops.foldl applySelOp initState).selections).Sorted (fun a b => a.1 ≤ b.1) ∧
    ∀ r ∈ (ops.foldl applySelOp initState).selections, r.1 < r.2 := by
  have h : SelWF (ops.foldl applySelOp initState) := by
    apply selWF_foldl
    constructor
    · exact List.sorted_nil
    · intro r hr; cases hr
  exact h

/-- C4: `endMark(t)` fails when no pending start exists; fails with an
invalid-range error when `t ≤ pendingStart + 0.01`; otherwise appends
`(pendingStart, t)`, re-sorts the selection set by start, and clears the
pending start.  On either failure the state is returned unchanged. -/
theorem C4_end_mark_contract (st : SelState) (t : ℚ) :
    (st.current_selection_start = none →
      on_end_selection st t = (st, EndResult.noActiveSelection)) ∧
    (∀ s, st.current_selection_start = some s → t ≤ s + 1/100 →
      on_end_selection st t = (st, EndResult.invalidRange)) ∧
    (∀ s, st.current_selection_start = some s → s + 1/100 < t →
      (on_end_selection st t).2 = EndResult.ok ∧
      (on_end_selection st t).1.current_selection_start = none ∧
      ((on_end_selection st t).1.selections).Perm (st.selections ++ [(s, t)]) ∧
      ((on_end_selection st t).1.selections).Sorted (fun a b => a.1 ≤ b.1)) := by
  refine ⟨?_, ?_, ?_⟩
  · intro h
    unfold on_end_selection
    rw [h]
  · intro s hs hle
    unfold on_end_selection
    rw [hs]
    simp only [if_pos hle]
  · intro s hs hlt
    unfold on_end_selection
    rw [hs]
    have hnle : ¬ t ≤ s + 1/100 := not_le.mpr hlt
    dsimp only
    rw [if_neg hnle]
    refine ⟨rfl, rfl, List.perm_insertionSort lexLe _, ?_⟩
    exact List.Pairwise.imp lexLe_imp_byStart
      (List.sorted_insertionSort lexLe (st.selections ++ [(s, t)]))

/-- Witness for C4: concrete run through the successful branch. -/
theorem C4_witness :
    ((initState : SelState).current_selection_start = none) ∧
    (on_end_selection { selections := [], current_selection_start := some 2 } 3).2 =
      EndResult.ok := by
  constructor
  · rfl
  · exact ((C4_end_mark_contract { selections := [], current_selection_start := some 2 } 3).2.2
      2 rfl (by norm_num)).1

theorem delFirstContaining_split (t : ℚ) :
    ∀ (l1 : List (ℚ × ℚ)) (r : ℚ × ℚ) (l2 : List (ℚ × ℚ)),
      (∀ x ∈ l1, ¬(x.1 ≤ t ∧ t ≤ x.2)) → r.1 ≤ t → t ≤ r.2 →
      delFirstContaining t (l1 ++ r :: l2) = some (l1 ++ l2) := by
  intro l1
  induction l1 with
  | nil =>
    intro r l2 _ h1 h2
    unfold delFirstContaining
    rw [List.nil_append, List.nil_append]
    simp only [if_pos (And.intro h1 h2)]
  | cons x xs ih =>
    intro r l2 hno h1 h2
    have hx : ¬(x.1 ≤ t ∧ t ≤ x.2) := hno x (List.mem_cons_self x xs)
    have hxs : ∀ y ∈ xs, ¬(y.1 ≤ t ∧ t ≤ y.2) := fun y hy => hno y (List.mem_cons_of_mem x hy)
    show delFirstContaining t (x :: (xs ++ r :: l2)) = some (x :: (xs ++ l2))
    unfold delFirstContaining
    rw [if_neg hx, ih r l2 hxs h1 h2]
    rfl

theorem delFirstContaining_none (t : ℚ) :
    ∀ l : List (ℚ × ℚ), (∀ x ∈ l, ¬(x.1 ≤ t ∧ t ≤ x.2)) →
      delFirstContaining t l = none := by
  intro l
  induction l with
  | nil => intro _; rfl
  | cons x xs ih =>
    intro hno
    unfold delFirstContaining
    rw [if_neg (hno x (List.mem_cons_self x xs)),
      ih (fun y hy => hno y (List.mem_cons_of_mem x hy))]
    rfl

/-- C5: `undoAt(t)` removes exactly the first range in scan order containing
`t` and leaves every other range (and the pending start) untouched; if no
range contains `t` it clears the whole set when non-empty, else clears the
pending start when present, else changes nothing. -/
theorem C5_undo_at_contract (st : SelState) (t : ℚ) :
    (∀ l1 r l2, st.selections = l1 ++ r :: l2 →
        (∀ x ∈ l1, ¬(x.1 ≤ t ∧ t ≤ x.2)) → r.1 ≤ t → t ≤ r.2 →
        on_undo_selection st t =
          { selections := l1 ++ l2,
            current_selection_start := st.current_selection_start }) ∧
    ((∀ x ∈ st.selections, ¬(x.1 ≤ t ∧ t ≤ x.2)) → st.selections ≠ [] →
        on_undo_selection st t =
          { selections := [], current_selection_start := st.current_selection_start }) ∧
    (st.selections = [] → ∀ s, st.current_selection_start = some s →
        on_undo_selection st t =
          { selections := [], current_selection_start := none }) ∧
    (st.selections = [] → st.current_selection_start = none →
        on_undo_selection st t = st) := by
  obtain ⟨sels, pend⟩ := st
  refine ⟨?_, ?_, ?_, ?_⟩
  · intro l1 r l2 hsel hno h1 h2
    dsimp only at hsel
    subst hsel
    unfold on_undo_selection
    dsimp only
    rw [delFirstContaining_split t l1 r l2 hno h1 h2]
  · intro hno hne
    unfold on_undo_selection
    dsimp only at *
    rw [delFirstContaining_none t sels hno]
    simp only [if_pos hne]
  · intro hsel s hs
    dsimp only at hsel hs
    subst hsel
    subst hs
    rfl
  · intro hsel hs
    dsimp only at hsel hs
    subst hsel
    subst hs
    rfl

/-- Witness for C5: removing the first of two ranges containing `t = 3`. -/
theorem C5_witness :
    on_undo_selection { selections := [(2, 4), (3, 5)], current_selection_start := none } 3 =
      { selections := [(3, 5)], current_selection_start := none } := by
  have h := (C5_undo_at_contract
    { selections := [(2, 4), (3, 5)], current_selection_start := none } 3).1
    [] (2, 4) [(3, 5)] rfl (by intro x hx; cases hx) (by norm_num) (by norm_num)
  simpa using h

/-! ## RemoveSelections keep-segment derivation (`main.py:598-623`) -/

/-- One iteration of the loop in `MainWindow._get_segments_to_keep_for_removal`
(`main.py:608-616`): clamp the removed range to `[0, duration]`, emit the gap
`(cursor, remove_start)` when it is at least 0.05s long, and advance the
cursor to `max(cursor, remove_end)`. -/
def removalStep (dur : ℚ) (st : ℚ × List (ℚ × ℚ)) (r : ℚ × ℚ) : ℚ × List (ℚ × ℚ) :=
  let rs := pyMax 0 (pyMin r.1 dur)
  let re := pyMax 0 (pyMin r.2 dur)
  (pyMax st.1 re,
    if st.1 < rs then (if 1/20 ≤ rs - st.1 then st.2 ++ [(st.1, rs)] else st.2) else st.2)

/-- Model of `MainWindow._get_segments_to_keep_for_removal` (`main.py:598-623`): early
exits for an empty selection list or nonpositive duration, then the sorted
cursor walk with a trailing keep-segment up to the duration. -/
def get_segments_to_keep_for_removal (selections : List (ℚ × ℚ)) (video_duration : ℚ) :
    List (ℚ × ℚ) :=
  if selections = [] then []
  else if video_duration ≤ 0 then [(0, video_duration)]
  else
    let sorted := List.insertionSort byStart selections
    let st := sorted.foldl (removalStep video_duration) (0, [])
    if st.1 < video_duration then
      (if 1/20 ≤ video_duration - st.1 then st.2 ++ [(st.1, video_duration)] else st.2)
    else st.2

/-- The RemoveSelections complement as the specification words it (§4.2 steps
1-3): sort ranges by start, walk them left to right with a cursor from 0,
clamping each to `[0, duration]`, emitting `(cursor, rs)` when `rs > cursor`
and the gap is at least 0.05s, advancing `cursor = max(cursor, re)`, and
finally emitting `(cursor, duration)` under the same length filter. -/
def keepSegmentsSpec (sels : List (ℚ × ℚ)) (dur : ℚ) : List (ℚ × ℚ) :=
  let sorted := List.insertionSort byStart sels
  let st := sorted.foldl (removalStep dur) (0, [])
  if st.1 < dur then
    (if 1/20 ≤ dur - st.1 then st.2 ++ [(st.1, dur)] else st.2)
  else st.2

theorem clamp_mono {dur a b : ℚ} (h : a ≤ b) :
    pyMax 0 (pyMin a dur) ≤ pyMax 0 (pyMin b dur) := by
  rw [pyMax_eq_max, pyMax_eq_max, pyMin_eq_min, pyMin_eq_min]
  exact max_le_max le_rfl (min_le_min h le_rfl)

theorem clamp_nonneg (dur a : ℚ) : 0 ≤ pyMax 0 (pyMin a dur) := by
  rw [pyMax_eq_max]; exact le_max_left _ _

theorem clamp_le_dur {dur : ℚ} (a : ℚ) (hdur : 0 ≤ dur) : pyMax 0 (pyMin a dur) ≤ dur := by
  rw [pyMax_eq_max, pyMin_eq_min]
  exact max_le hdur (min_le_right _ _)

/-- If clamping to `[0, dur]` identifies the two endpoints of a nondegenerate
range and the common value is positive, the range collapsed at `dur`. -/
theorem clamp_collapse {dur a b : ℚ} (hab : a < b)
    (heq : pyMax 0 (pyMin a dur) = pyMax 0 (pyMin b dur))
    (hpos : 0 < pyMax 0 (pyMin a dur)) : pyMax 0 (pyMin a dur) = dur := by
  rw [pyMax_eq_max, pyMin_eq_min] at heq hpos ⊢
  rw [pyMax_eq_max, pyMin_eq_min] at heq
  have h1 : 0 < min a dur := by
    by_contra hc
    push_neg at hc
    rw [max_eq_left hc] at hpos
    exact lt_irrefl 0 hpos
  have hL : max 0 (min a dur) = min a dur := max_eq_right h1.le
  have h2 : 0 < max 0 (min b dur) := heq ▸ hpos
  have h2' : 0 < min b dur := by
    by_contra hc
    push_neg at hc
    rw [max_eq_left hc] at h2
    exact lt_irrefl 0 h2
  have hR : max 0 (min b dur) = min b dur := max_eq_right h2'.le
  have hmin : min a dur = min b dur := by
    rw [hL, hR] at heq
    exact heq
  rcases le_or_lt dur a with hda | had
  · rw [hL, min_eq_right hda]
  · exfalso
    rw [min_eq_left had.le] at hmin
    rcases le_or_lt b dur with hbd | hdb
    · rw [min_eq_left hbd] at hmin
      exact absurd (hmin ▸ hab) (lt_irrefl a)
    · rw [min_eq_right hdb.le] at hmin
      exact absurd (hmin ▸ had) (lt_irrefl a)

/-- Invariant of the cursor walk: the cursor stays in `[0, dur]`, every
emitted segment lies in `[0, dur]`, is at least 0.05s long, segments are
chained strictly left to right, all end at or before the cursor, and
strictly before it unless the cursor has hit `dur`. -/
structure RemInv (dur : ℚ) (st : ℚ × List (ℚ × ℚ)) : Prop where
  cursor_nonneg : 0 ≤ st.1
  cursor_le : st.1 ≤ dur
  mem_bounds : ∀ s ∈ st.2, 0 ≤ s.1 ∧ s.1 + 1/20 ≤ s.2 ∧ s.2 ≤ dur
  chain : st.2.Pairwise (fun x y => x.2 < y.1)
  ends_le : ∀ s ∈ st.2, s.2 ≤ st.1
  ends_lt : st.1 = dur ∨ ∀ s ∈ st.2, s.2 < st.1

theorem remInv_advance {dur re : ℚ} {st : ℚ × List (ℚ × ℚ)} (h : RemInv dur st)
    (hred : re ≤ dur) : RemInv dur (pyMax st.1 re, st.2) := by
  have hc : st.1 ≤ pyMax st.1 re := by rw [pyMax_eq_max]; exact le_max_left _ _
  refine ⟨le_trans h.cursor_nonneg hc, ?_, h.mem_bounds, h.chain, ?_, ?_⟩
  · rw [pyMax_eq_max]; exact max_le h.cursor_le hred
  · intro s hs
    exact le_trans (h.ends_le s hs) hc
  · rcases h.ends_lt with he | he
    · left
      rw [pyMax_eq_max, he]
      exact max_eq_left hred
    · right
      intro s hs
      exact lt_of_lt_of_le (he s hs) hc

theorem remInv_step {dur : ℚ} {st : ℚ × List (ℚ × ℚ)} {r : ℚ × ℚ}
    (hdur : 0 < dur) (hr : r.1 < r.2) (h : RemInv dur st) :
    RemInv dur (removalStep dur st r) := by
  unfold removalStep
  dsimp only
  have hrs0 : 0 ≤ pyMax 0 (pyMin r.1 dur) := clamp_nonneg dur r.1
  have hrsd : pyMax 0 (pyMin r.1 dur) ≤ dur := clamp_le_dur r.1 hdur.le
  have hred : pyMax 0 (pyMin r.2 dur) ≤ dur := clamp_le_dur r.2 hdur.le
  have hrsre : pyMax 0 (pyMin r.1 dur) ≤ pyMax 0 (pyMin r.2 dur) := clamp_mono hr.le
  by_cases h1 : st.1 < pyMax 0 (pyMin r.1 dur)
  · by_cases h2 : 1/20 ≤ pyMax 0 (pyMin r.1 dur) - st.1
    · rw [if_pos h1, if_pos h2]
      have hstdur : st.1 < dur := lt_of_lt_of_le h1 hrsd
      have hends : ∀ s ∈ st.2, s.2 < st.1 := by
        rcases h.ends_lt with he | he
        · exact absurd (he ▸ hstdur) (lt_irrefl dur)
        · exact he
      have hc : st.1 ≤ pyMax st.1 (pyMax 0 (pyMin r.2 dur)) := by
        rw [pyMax_eq_max]; exact le_max_left _ _
      have hrec : pyMax 0 (pyMin r.2 dur) ≤ pyMax st.1 (pyMax 0 (pyMin r.2 dur)) := by
        rw [pyMax_eq_max]; exact le_max_right _ _
      refine ⟨le_trans h.cursor_nonneg hc, ?_, ?_, ?_, ?_, ?_⟩
      · rw [pyMax_eq_max]
        exact max_le h.cursor_le hred
      · intro s hs
        rcases List.mem_append.mp hs with hm | hm
        · exact h.mem_bounds s hm
        · have : s = (st.1, pyMax 0 (pyMin r.1 dur)) := List.mem_singleton.mp hm
          subst this
          exact ⟨h.cursor_nonneg, by linarith, hrsd⟩
      · rw [List.pairwise_append]
        refine ⟨h.chain, List.pairwise_singleton _ _, ?_⟩
        intro a ha b hb
        have : b = (st.1, pyMax 0 (pyMin r.1 dur)) := List.mem_singleton.mp hb
        subst this
        exact hends a ha
      · intro s hs
        rcases List.mem_append.mp hs with hm | hm
        · exact le_trans (le_of_lt (hends s hm)) hc
        · have : s = (st.1, pyMax 0 (pyMin r.1 dur)) := List.mem_singleton.mp hm
          subst this
          exact le_trans hrsre hrec
      · rcases lt_or_eq_of_le hrsre with hlt | heq
        · right
          intro s hs
          have hmax : pyMax st.1 (pyMax 0 (pyMin r.2 dur)) = pyMax 0 (pyMin r.2 dur) := by
            rw [pyMax_eq_max]
            exact max_eq_right (le_of_lt (lt_trans h1 hlt))
          rw [hmax]
          rcases List.mem_append.mp hs with hm | hm
          · exact lt_trans (hends s hm) (lt_trans h1 hlt)
          · have : s = (st.1, pyMax 0 (pyMin r.1 dur)) := List.mem_singleton.mp hm
            subst this
            exact hlt
        · left
          have hrs_pos : 0 < pyMax 0 (pyMin r.1 dur) := lt_of_le_of_lt h.cursor_nonneg h1
          have hdd : pyMax 0 (pyMin r.1 dur) = dur := clamp_collapse hr heq hrs_pos
          rw [pyMax_eq_max, ← heq, hdd]
          exact max_eq_right h.cursor_le
    · rw [if_pos h1, if_neg h2]
      exact remInv_advance h hred
  · rw [if_neg h1]
    exact remInv_advance h hred

theorem remInv_foldl {dur : ℚ} (hdur : 0 < dur) :
    ∀ (l : List (ℚ × ℚ)) (st : ℚ × List (ℚ × ℚ)),
      (∀ r ∈ l, r.1 < r.2) → RemInv dur st →
      RemInv dur (l.foldl (removalStep dur) st) := by
  intro l
  induction l with
  | nil => intro st _ h; exact h
  | cons r rs ih =>
    intro st hall h
    exact ih (removalStep dur st r)
      (fun x hx => hall x (List.mem_cons_of_mem r hx))
      (remInv_step hdur (hall r (List.mem_cons_self r rs)) h)

/-- The final keep-segment list (non-early-exit path) satisfies the chain and
bound invariants. -/
theorem keep_segments_good {sels : List (ℚ × ℚ)} {dur : ℚ} (hdur : 0 < dur)
    (hr : ∀ r ∈ sels, r.1 < r.2) :
    (get_segments_to_keep_for_removal sels dur).Pairwise (fun x y => x.2 < y.1) ∧
    ∀ s ∈ get_segments_to_keep_for_removal sels dur,
      0 ≤ s.1 ∧ s.1 + 1/20 ≤ s.2 ∧ s.2 ≤ dur := by
  by_cases hne : sels = []
  · subst hne
    unfold get_segments_to_keep_for_removal
    rw [if_pos rfl]
    exact ⟨List.Pairwise.nil, fun s hs => absurd hs (List.not_mem_nil s)⟩
  · unfold get_segments_to_keep_for_removal
    rw [if_neg hne, if_neg (not_le.mpr hdur)]
    have hsorted : ∀ r ∈ List.insertionSort byStart sels, r.1 < r.2 := by
      intro r hrm
      exact hr r ((List.perm_insertionSort byStart sels).mem_iff.mp hrm)
    have hinit : RemInv dur ((0 : ℚ), ([] : List (ℚ × ℚ))) := by
      refine ⟨le_rfl, hdur.le, ?_, List.Pairwise.nil, ?_, Or.inr ?_⟩
      · intro s hs; cases hs
      · intro s hs; cases hs
      · intro s hs; cases hs
    have hinv := remInv_foldl hdur (List.insertionSort byStart sels) (0, []) hsorted hinit
    set st := (List.insertionSort byStart sels).foldl (removalStep dur) (0, []) with hst
    by_cases hlt : st.1 < dur
    · rw [if_pos hlt]
      by_cases hlen : 1/20 ≤ dur - st.1
      · rw [if_pos hlen]
        have hends : ∀ s ∈ st.2, s.2 < st.1 := by
          rcases hinv.ends_lt with he | he
          · exact absurd (he ▸ hlt) (lt_irrefl dur)
          · exact he
        constructor
        · rw [List.pairwise_append]
          refine ⟨hinv.chain, List.pairwise_singleton _ _, ?_⟩
          intro a ha b hb
          have : b = (st.1, dur) := List.mem_singleton.mp hb
          subst this
          exact hends a ha
        · intro s hs
          rcases List.mem_append.mp hs with hm | hm
          · exact hinv.mem_bounds s hm
          · have : s = (st.1, dur) := List.mem_singleton.mp hm
            subst this
            exact ⟨hinv.cursor_nonneg, by linarith, le_rfl⟩
      · rw [if_neg hlen]
        exact ⟨hinv.chain, hinv.mem_bounds⟩
    · rw [if_neg hlt]
      exact ⟨hinv.chain, hinv.mem_bounds⟩

/-- C10: for every list of selection ranges with `start < end` and every
duration > 0, the keep-segments produced by the RemoveSelections derivation
are sorted strictly ascending by start, pairwise disjoint (each segment ends
strictly before the next begins), each lies within `[0, duration]`, and each
is at least 0.05s long -- even for overlapping or unsorted input ranges. -/
theorem C10_keep_segments_invariants (sels : List (ℚ × ℚ)) (dur : ℚ)
    (hdur : 0 < dur) (hr : ∀ r ∈ sels, r.1 < r.2) :
    (get_segments_to_keep_for_removal sels dur).Pairwise (fun x y => x.1 < y.1) ∧
    (get_segments_to_keep_for_removal sels dur).Pairwise (fun x y => x.2 < y.1) ∧
    ∀ s ∈ get_segments_to_keep_for_removal sels dur,
      0 ≤ s.1 ∧ s.1 + 1/20 ≤ s.2 ∧ s.2 ≤ dur := by
  obtain ⟨hchain, hbounds⟩ := keep_segments_good hdur hr
  refine ⟨?_, hchain, hbounds⟩
  refine List.Pairwise.imp_of_mem ?_ hchain
  intro a b ha _ hab
  have := hbounds a ha
  linarith [this.2.1]

/-- Witness for C10 at the overlapping example `[(2,5),(4,8)]`, duration 10. -/
theorem C10_witness :
    (0:ℚ) < 10 ∧ (∀ r ∈ [((2:ℚ),(5:ℚ)),(4,8)], r.1 < r.2) ∧
    ((get_segments_to_keep_for_removal [((2:ℚ),(5:ℚ)),(4,8)] 10).Pairwise
        (fun x y => x.1 < y.1) ∧
      (get_segments_to_keep_for_removal [((2:ℚ),(5:ℚ)),(4,8)] 10).Pairwise
        (fun x y => x.2 < y.1) ∧
      ∀ s ∈ get_segments_to_keep_for_removal [((2:ℚ),(5:ℚ)),(4,8)] 10,
        0 ≤ s.1 ∧ s.1 + 1/20 ≤ s.2 ∧ s.2 ≤ 10) := by
  refine ⟨by norm_num, ?_, ?_⟩
  · intro r hrm
    rcases List.mem_cons.mp hrm with h | h
    · subst h; norm_num
    · have : r = ((4:ℚ),(8:ℚ)) := List.mem_singleton.mp h
      subst this; norm_num
  · exact C10_keep_segments_invariants [((2:ℚ),(5:ℚ)),(4,8)] 10 (by norm_num)
      (by
        intro r hrm
        rcases List.mem_cons.mp hrm with h | h
        · subst h; norm_num
        · have : r = ((4:ℚ),(8:ℚ)) := List.mem_singleton.mp h
          subst this; norm_num)

theorem perm_pair_cases {α : Type} [DecidableEq α] {l : List α} {a b : α}
    (hab : a ≠ b) (h : l.Perm [a, b]) : l = [a, b] ∨ l = [b, a] := by
  have hlen : l.length = 2 := by rw [h.length_eq]; rfl
  obtain ⟨x, y, rfl⟩ := List.length_eq_two.mp hlen
  have hx : x ∈ [a, b] := h.mem_iff.mp (List.mem_cons_self x [y])
  have hy : y ∈ [a, b] := h.mem_iff.mp (List.mem_cons_of_mem x (List.mem_cons_self y []))
  rcases List.mem_cons.mp hx with hxa | hx'
  · rcases List.mem_cons.mp hy with hya | hy'
    · exfalso
      have hbm : b ∈ [x, y] := h.mem_iff.mpr (List.mem_cons_of_mem a (List.mem_cons_self b []))
      rcases List.mem_cons.mp hbm with h1 | h1
      · exact hab (h1.trans hxa).symm
      · exact hab ((List.mem_singleton.mp h1).trans hya).symm
    · have hyb : y = b := List.mem_singleton.mp hy'
      left
      rw [hxa, hyb]
  · have hxb : x = b := List.mem_singleton.mp hx'
    rcases List.mem_cons.mp hy with hya | hy'
    · right
      rw [hxb, hya]
    · exfalso
      have hyb : y = b := List.mem_singleton.mp hy'
      have ham : a ∈ [x, y] := h.mem_iff.mpr (List.mem_cons_self a [b])
      rcases List.mem_cons.mp ham with h1 | h1
      · exact hab (h1.trans hxb)
      · exact hab ((List.mem_singleton.mp h1).trans hyb)

theorem keep_removal_example_sorted :
    get_segments_to_keep_for_removal [((2:ℚ),(5:ℚ)),(4,8)] 10 = [(0, 2), (8, 10)] := by
  unfold get_segments_to_keep_for_removal
  rw [if_neg (by simp : ¬([((2:ℚ),(5:ℚ)),(4,8)] = [])),
    if_neg (by norm_num : ¬((10:ℚ) ≤ 0))]
  norm_num [removalStep, List.insertionSort, List.orderedInsert, byStart,
    pyMax, pyMin, List.foldl]

theorem keep_removal_example_unsorted :
    get_segments_to_keep_for_removal [((4:ℚ),(8:ℚ)),(2,5)] 10 = [(0, 2), (8, 10)] := by
  unfold get_segments_to_keep_for_removal
  rw [if_neg (by simp : ¬([((4:ℚ),(8:ℚ)),(2,5)] = [])),
    if_neg (by norm_num : ¬((10:ℚ) ≤ 0))]
  norm_num [removalStep, List.insertionSort, List.orderedInsert, byStart,
    pyMax, pyMin, List.foldl]

/-- C1: the RemoveSelections keep-segment derivation is exactly the
spec-described cursor walk (sort by start, clamp to `[0, duration]`, emit
`(cursor, rs)` when `rs > cursor` with the 0.05s filter, advance
`cursor = max(cursor, re)`, trailing segment to `duration`); in particular
selections `[(2,5),(4,8)]` over duration 10 produce `[(0,2),(8,10)]`
regardless of the order in which the two ranges were entered. -/
theorem C1_remove_selections_complement :
    (∀ (sels : List (ℚ × ℚ)) (dur : ℚ), sels ≠ [] → 0 < dur →
        get_segments_to_keep_for_removal sels dur = keepSegmentsSpec sels dur) ∧
    (∀ sels : List (ℚ × ℚ), sels.Perm [(2, 5), (4, 8)] →
        get_segments_to_keep_for_removal sels 10 = [(0, 2), (8, 10)]) := by
  constructor
  · intro sels dur hne hdur
    unfold get_segments_to_keep_for_removal keepSegmentsSpec
    rw [if_neg hne, if_neg (not_le.mpr hdur)]
  · intro sels hperm
    have hab : ((2:ℚ), (5:ℚ)) ≠ ((4:ℚ), (8:ℚ)) := by
      intro hc
      rw [Prod.ext_iff] at hc
      norm_num at hc
    rcases perm_pair_cases hab hperm with h | h
    · rw [h]
      exact keep_removal_example_sorted
    · rw [h]
      exact keep_removal_example_unsorted

/-- Witness for C1: the reversed-order entry of the two ranges. -/
theorem C1_witness :
    ([((4:ℚ),(8:ℚ)),(2,5)].Perm [(2, 5), (4, 8)]) ∧
    get_segments_to_keep_for_removal [((4:ℚ),(8:ℚ)),(2,5)] 10 = [(0, 2), (8, 10)] := by
  have hperm : ([((4:ℚ),(8:ℚ)),(2,5)].Perm [(2, 5), (4, 8)]) := by decide
  exact ⟨hperm, C1_remove_selections_complement.2 [((4:ℚ),(8:ℚ)),(2,5)] hperm⟩

/-! ## SplitByTags planning (`main.py:706-741`) -/

/-- Split points of the SplitByTags planner (`main.py:716-717`):
`[0.0] + selected_tags + [duration]`, filtered to `p <= duration + 0.001`,
deduplicated (Python `set`) and sorted ascending. -/
def split_points (tags : List ℚ) (dur : ℚ) : List ℚ :=
  List.insertionSort (· ≤ ·)
    ((((0 : ℚ) :: tags) ++ [dur]).filter (fun p => decide (p ≤ dur + 1/1000))).dedup

/-- The consecutive-pair loop of SplitByTags (`main.py:720-741`): each point of
a consecutive pair is clamped to `[0, duration]`; a pair whose clamped span is
below 0.05s is skipped (`continue`), the rest become single-cut task bounds in
order. -/
def tag_pair_tasks (dur : ℚ) : List ℚ → List (ℚ × ℚ)
  | p :: q :: rest =>
    if pyMax 0 (pyMin q dur) - pyMax 0 (pyMin p dur) < 1/20 then
      tag_pair_tasks dur (q :: rest)
    else
      (pyMax 0 (pyMin p dur), pyMax 0 (pyMin q dur)) :: tag_pair_tasks dur (q :: rest)
  | _ => []

/-- SplitByTags single-cut task bounds as planned by `on_save_video` save mode
3 (`main.py:706-741`). -/
def split_by_tags_plan (tags : List ℚ) (dur : ℚ) : List (ℚ × ℚ) :=
  tag_pair_tasks dur (split_points tags dur)

/-- The pair loop as the claim words it: one task per consecutive pair of
split points whose span is at least 0.05s, the task bounds being the pair of
points themselves (no clamping). -/
def tag_pair_tasks_claim : List ℚ → List (ℚ × ℚ)
  | p :: q :: rest =>
    if q - p < 1/20 then tag_pair_tasks_claim (q :: rest)
    else (p, q) :: tag_pair_tasks_claim (q :: rest)
  | _ => []

/-- SplitByTags planning exactly as the claim describes it. -/
def split_by_tags_claim (tags : List ℚ) (dur : ℚ) : List (ℚ × ℚ) :=
  tag_pair_tasks_claim (split_points tags dur)

theorem clamp_id {dur p : ℚ} (h0 : 0 ≤ p) (hd : p ≤ dur) : pyMax 0 (pyMin p dur) = p := by
  rw [pyMin_eq_min, pyMax_eq_max, min_eq_left hd, max_eq_right h0]

theorem tag_pair_tasks_in_range (dur : ℚ) :
    ∀ pts : List ℚ, (∀ p ∈ pts, 0 ≤ p ∧ p ≤ dur) →
      tag_pair_tasks dur pts = tag_pair_tasks_claim pts := by
  intro pts
  induction pts with
  | nil => intro _; rfl
  | cons p rest ih =>
    cases rest with
    | nil => intro _; rfl
    | cons q rest' =>
      intro hmem
      have hp := hmem p (List.mem_cons_self p _)
      have hq := hmem q (List.mem_cons_of_mem p (List.mem_cons_self q _))
      have hrec := ih (fun x hx => hmem x (List.mem_cons_of_mem p hx))
      unfold tag_pair_tasks tag_pair_tasks_claim
      rw [clamp_id hp.1 hp.2, clamp_id hq.1 hq.2, hrec]

theorem split_points_mem_range {tags : List ℚ} {dur : ℚ} (hdur : 0 < dur)
    (htags : ∀ t ∈ tags, 0 ≤ t ∧ t ≤ dur) :
    ∀ p ∈ split_points tags dur, 0 ≤ p ∧ p ≤ dur := by
  intro p hp
  unfold split_points at hp
  have h1 : p ∈ ((((0 : ℚ) :: tags) ++ [dur]).filter
      (fun p => decide (p ≤ dur + 1/1000))).dedup :=
    (List.perm_insertionSort _ _).mem_iff.mp hp
  have h2 : p ∈ (((0 : ℚ) :: tags) ++ [dur]).filter (fun p => decide (p ≤ dur + 1/1000)) :=
    List.mem_dedup.mp h1
  have h3 : p ∈ ((0 : ℚ) :: tags) ++ [dur] := List.mem_of_mem_filter h2
  rcases List.mem_append.mp h3 with h4 | h4
  · rcases List.mem_cons.mp h4 with h5 | h5
    · subst h5
      exact ⟨le_rfl, hdur.le⟩
    · exact htags p h5
  · have : p = dur := List.mem_singleton.mp h4
    subst this
    exact ⟨hdur.le, le_rfl⟩

theorem split_points_example :
    split_points [3, 15/2] 10 = [0, 3, 15/2, 10] := by
  unfold split_points
  have hf : ((((0:ℚ) :: [3, 15/2]) ++ [10]).filter (fun p => decide (p ≤ 10 + 1/1000))) =
      [0, 3, 15/2, 10] := by
    simp only [List.cons_append, List.nil_append, List.filter_cons, List.filter_nil]
    norm_num
  rw [hf]
  have hd : ([0, 3, 15/2, 10] : List ℚ).dedup = [0, 3, 15/2, 10] := by
    rw [List.dedup_cons_of_not_mem (by norm_num), List.dedup_cons_of_not_mem (by norm_num),
      List.dedup_cons_of_not_mem (by norm_num), List.dedup_cons_of_not_mem (by simp),
      List.dedup_nil]
  rw [hd]
  norm_num [List.insertionSort, List.orderedInsert]

theorem split_by_tags_example :
    split_by_tags_plan [3, 15/2] 10 = [(0, 3), (3, 15/2), (15/2, 10)] := by
  unfold split_by_tags_plan
  rw [split_points_example]
  norm_num [tag_pair_tasks, pyMax, pyMin]

/-- C2 counterexample: the claim quantifies over every tag set, but the code
clamps each consecutive pair into `[0, duration]` before the 0.05s span test.
For the tag set `{-1}` with duration 10 the split points are `[-1, 0, 10]`;
the pair `(-1, 0)` has span 1 >= 0.05s so the claim's description produces a
task for it, while the code clamps it to `(0, 0)` and skips it. -/
theorem C2_counterexample :
    split_by_tags_plan [-1] 10 = [(0, 10)] ∧
    split_by_tags_claim [-1] 10 = [(-1, 0), (0, 10)] ∧
    split_by_tags_plan [-1] 10 ≠ split_by_tags_claim [-1] 10 := by
  have hpts : split_points [-1] 10 = [-1, 0, 10] := by
    unfold split_points
    have hf : ((((0:ℚ) :: [-1]) ++ [10]).filter (fun p => decide (p ≤ 10 + 1/1000))) =
        [0, -1, 10] := by
      simp only [List.cons_append, List.nil_append, List.filter_cons, List.filter_nil]
      norm_num
    rw [hf]
    have hd : ([0, -1, 10] : List ℚ).dedup = [0, -1, 10] := by
      rw [List.dedup_cons_of_not_mem (by norm_num), List.dedup_cons_of_not_mem (by norm_num),
        List.dedup_cons_of_not_mem (by simp), List.dedup_nil]
    rw [hd]
    norm_num [List.insertionSort, List.orderedInsert]
  have hplan : split_by_tags_plan [-1] 10 = [(0, 10)] := by
    unfold split_by_tags_plan
    rw [hpts]
    norm_num [tag_pair_tasks, pyMax, pyMin]
  have hclaim : split_by_tags_claim [-1] 10 = [(-1, 0), (0, 10)] := by
    unfold split_by_tags_claim
    rw [hpts]
    norm_num [tag_pair_tasks_claim]
  refine ⟨hplan, hclaim, ?_⟩
  rw [hplan, hclaim]
  intro hc
  have hlen := congrArg List.length hc
  simp at hlen

/-- C2 (amended): for every non-empty tag set whose tags all lie within
`[0, duration]` and every duration > 0, SplitByTags planning builds split
points `{0} ∪ tags ∪ {duration}` deduplicated and sorted with points beyond
`duration + 0.001` discarded, and produces exactly one single-cut task per
consecutive pair of points whose span is at least 0.05s (pairs are first
clamped to `[0, duration]`, which is the identity in this range), silently
skipping shorter spans; in particular tags `{3.0, 7.5}` with duration 10
yield exactly the tasks `(0,3.0), (3.0,7.5), (7.5,10)`. -/
theorem C2_split_by_tags_clamped :
    (∀ (tags : List ℚ) (dur : ℚ), 0 < dur → tags ≠ [] →
        (∀ t ∈ tags, 0 ≤ t ∧ t ≤ dur) →
        split_by_tags_plan tags dur = split_by_tags_claim tags dur) ∧
    split_by_tags_plan [3, 15/2] 10 = [(0, 3), (3, 15/2), (15/2, 10)] := by
  constructor
  · intro tags dur hdur _ htags
    unfold split_by_tags_plan split_by_tags_claim
    exact tag_pair_tasks_in_range dur (split_points tags dur)
      (split_points_mem_range hdur htags)
  · exact split_by_tags_example

/-- Witness for C2 at the in-range tag set `{3, 7.5}` with duration 10. -/
theorem C2_witness :
    (0:ℚ) < 10 ∧ ([3, 15/2] : List ℚ) ≠ [] ∧
    (∀ t ∈ ([3, 15/2] : List ℚ), 0 ≤ t ∧ t ≤ 10) ∧
    split_by_tags_plan [3, 15/2] 10 = split_by_tags_claim [3, 15/2] 10 := by
  refine ⟨by norm_num, by simp, ?_, ?_⟩
  · intro t ht
    rcases List.mem_cons.mp ht with h | h
    · subst h; norm_num
    · have : t = (15:ℚ)/2 := List.mem_singleton.mp h
      subst this; norm_num
  · exact C2_split_by_tags_clamped.1 [3, 15/2] 10 (by norm_num) (by simp)
      (by
        intro t ht
        rcases List.mem_cons.mp ht with h | h
        · subst h; norm_num
        · have : t = (15:ℚ)/2 := List.mem_singleton.mp h
          subst this; norm_num)

/-! ## Keyframe tag toggling (`ui_timeline.py:44-62`) -/

structure TLState where
  keyframes : List ℚ
  selected_keyframes : Finset ℚ

/-- One iteration of the closest-keyframe search loop
(`ui_timeline.py:48-53`): a keyframe whose distance to the click is strictly
below the 0.1s tolerance and strictly improves the best distance so far
becomes the new candidate; `min_diff` starts at infinity, modelled by the
`none` accumulator. -/
def closestStep (t : ℚ) (acc : Option (ℚ × ℚ)) (kf : ℚ) : Option (ℚ × ℚ) :=
  if pyAbs (kf - t) < 1/10 then
    match acc with
    | none => some (kf, pyAbs (kf - t))
    | some (c, m) => if pyAbs (kf - t) < m then some (kf, pyAbs (kf - t)) else some (c, m)
  else acc

/-- Model of `TimelineWidget.toggle_keyframe_selection` (`ui_timeline.py:44-62`):
find the closest keyframe within tolerance, toggle its membership in the
selected-keyframe set and return `True`; without a match, change nothing and
return `False`. -/
def toggle_keyframe_selection (st : TLState) (t : ℚ) : TLState × Bool :=
  match st.keyframes.foldl (closestStep t) none with
  | some (c, _) =>
    (if c ∈ st.selected_keyframes
      then { st with selected_keyframes := st.selected_keyframes.erase c }
      else { st with selected_keyframes := insert c st.selected_keyframes }, true)
  | none => (st, false)

theorem closest_fold_none_of (t : ℚ) :
    ∀ kfs : List ℚ, (∀ kf ∈ kfs, ¬(pyAbs (kf - t) < 1/10)) →
      kfs.foldl (closestStep t) none = none := by
  intro kfs
  induction kfs with
  | nil => intro _; rfl
  | cons kf rest ih =>
    intro h
    have hkf := h kf (List.mem_cons_self kf rest)
    show (rest.foldl (closestStep t) (closestStep t none kf)) = none
    rw [show closestStep t none kf = none by unfold closestStep; rw [if_neg hkf]]
    exact ih (fun x hx => h x (List.mem_cons_of_mem kf hx))

theorem closest_fold_go (t : ℚ) :
    ∀ (kfs : List ℚ) (c₀ m₀ : ℚ), m₀ = pyAbs (c₀ - t) → m₀ < 1/10 →
      ∃ c m, kfs.foldl (closestStep t) (some (c₀, m₀)) = some (c, m) ∧
        m = pyAbs (c - t) ∧ m < 1/10 ∧ m ≤ m₀ ∧ (c = c₀ ∨ c ∈ kfs) ∧
        ∀ kf ∈ kfs, m ≤ pyAbs (kf - t) := by
  intro kfs
  induction kfs with
  | nil =>
    intro c₀ m₀ hm htol
    exact ⟨c₀, m₀, rfl, hm, htol, le_rfl, Or.inl rfl, fun kf hkf => absurd hkf (List.not_mem_nil kf)⟩
  | cons kf rest ih =>
    intro c₀ m₀ hm htol
    show ∃ c m, rest.foldl (closestStep t) (closestStep t (some (c₀, m₀)) kf) = some (c, m) ∧ _
    by_cases h : pyAbs (kf - t) < 1/10
    · by_cases h2 : pyAbs (kf - t) < m₀
      · rw [show closestStep t (some (c₀, m₀)) kf = some (kf, pyAbs (kf - t)) by
          unfold closestStep; rw [if_pos h]; dsimp only; rw [if_pos h2]]
        obtain ⟨c, m, heq, hmc, hmt, hle, hor, hall⟩ := ih kf (pyAbs (kf - t)) rfl h
        refine ⟨c, m, heq, hmc, hmt, le_trans hle h2.le, ?_, ?_⟩
        · rcases hor with h3 | h3
          · exact Or.inr (h3 ▸ List.mem_cons_self kf rest)
          · exact Or.inr (List.mem_cons_of_mem kf h3)
        · intro x hx
          rcases List.mem_cons.mp hx with h3 | h3
          · exact h3 ▸ hle
          · exact hall x h3
      · rw [show closestStep t (some (c₀, m₀)) kf = some (c₀, m₀) by
          unfold closestStep; rw [if_pos h]; dsimp only; rw [if_neg h2]]
        obtain ⟨c, m, heq, hmc, hmt, hle, hor, hall⟩ := ih c₀ m₀ hm htol
        refine ⟨c, m, heq, hmc, hmt, hle, ?_, ?_⟩
        · rcases hor with h3 | h3
          · exact Or.inl h3
          · exact Or.inr (List.mem_cons_of_mem kf h3)
        · intro x hx
          rcases List.mem_cons.mp hx with h3 | h3
          · subst h3
            exact le_trans hle (not_lt.mp h2)
          · exact hall x h3
    · rw [show closestStep t (some (c₀, m₀)) kf = some (c₀, m₀) by
        unfold closestStep; rw [if_neg h]]
      obtain ⟨c, m, heq, hmc, hmt, hle, hor, hall⟩ := ih c₀ m₀ hm htol
      refine ⟨c, m, heq, hmc, hmt, hle, ?_, ?_⟩
      · rcases hor with h3 | h3
        · exact Or.inl h3
        · exact Or.inr (List.mem_cons_of_mem kf h3)
      · intro x hx
        rcases List.mem_cons.mp hx with h3 | h3
        · subst h3
          exact le_trans hmt.le (not_lt.mp h)
        · exact hall x h3

theorem closest_fold_start (t : ℚ) :
    ∀ kfs : List ℚ, (∃ kf ∈ kfs, pyAbs (kf - t) < 1/10) →
      ∃ c m, kfs.foldl (closestStep t) none = some (c, m) ∧
        m = pyAbs (c - t) ∧ m < 1/10 ∧ c ∈ kfs ∧
        ∀ kf ∈ kfs, m ≤ pyAbs (kf - t) := by
  intro kfs
  induction kfs with
  | nil =>
    intro h
    obtain ⟨kf, hkf, _⟩ := h
    exact absurd hkf (List.not_mem_nil kf)
  | cons kf rest ih =>
    intro h
    show ∃ c m, rest.foldl (closestStep t) (closestStep t none kf) = some (c, m) ∧ _
    by_cases hkf : pyAbs (kf - t) < 1/10
    · rw [show closestStep t none kf = some (kf, pyAbs (kf - t)) by
        unfold closestStep; rw [if_pos hkf]]
      obtain ⟨c, m, heq, hmc, hmt, hle, hor, hall⟩ := closest_fold_go t rest kf (pyAbs (kf - t)) rfl hkf
      refine ⟨c, m, heq, hmc, hmt, ?_, ?_⟩
      · rcases hor with h3 | h3
        · exact h3 ▸ List.mem_cons_self kf rest
        · exact List.mem_cons_of_mem kf h3
      · intro x hx
        rcases List.mem_cons.mp hx with h3 | h3
        · exact h3 ▸ hle
        · exact hall x h3
    · rw [show closestStep t none kf = none by unfold closestStep; rw [if_neg hkf]]
      obtain ⟨c0, hc0, hc0t⟩ := h
      have hc0' : c0 ∈ rest := by
        rcases List.mem_cons.mp hc0 with h3 | h3
        · exact absurd (h3 ▸ hc0t) hkf
        · exact h3
      obtain ⟨c, m, heq, hmc, hmt, hcm, hall⟩ := ih ⟨c0, hc0', hc0t⟩
      refine ⟨c, m, heq, hmc, hmt, List.mem_cons_of_mem kf hcm, ?_⟩
      intro x hx
      rcases List.mem_cons.mp hx with h3 | h3
      · subst h3
        exact le_trans hmt.le (not_lt.mp hkf)
      · exact hall x h3

/-- C9: `toggleKeyframeTag(t)` matches `t` to the nearest known keyframe
within the (strict) 0.1s tolerance, toggles that keyframe's membership in the
tag set, and returns that a match was found; when no keyframe lies within the
tolerance it leaves the state untouched and returns that no match was
found. -/
theorem C9_toggle_keyframe_tag (st : TLState) (t : ℚ) :
    ((∀ kf ∈ st.keyframes, ¬(|kf - t| < 1/10)) →
      toggle_keyframe_selection st t = (st, false)) ∧
    ((∃ kf ∈ st.keyframes, |kf - t| < 1/10) →
      ∃ c, c ∈ st.keyframes ∧ |c - t| < 1/10 ∧
        (∀ kf ∈ st.keyframes, |c - t| ≤ |kf - t|) ∧
        toggle_keyframe_selection st t =
          (if c ∈ st.selected_keyframes
            then { st with selected_keyframes := st.selected_keyframes.erase c }
            else { st with selected_keyframes := insert c st.selected_keyframes }, true)) := by
  constructor
  · intro h
    unfold toggle_keyframe_selection
    rw [closest_fold_none_of t st.keyframes (fun kf hkf => by
      rw [pyAbs_eq_abs]; exact h kf hkf)]
  · intro h
    obtain ⟨kf0, hkf0, htol0⟩ := h
    obtain ⟨c, m, heq, hmc, hmt, hcm, hall⟩ :=
      closest_fold_start t st.keyframes ⟨kf0, hkf0, by rw [pyAbs_eq_abs]; exact htol0⟩
    refine ⟨c, hcm, ?_, ?_, ?_⟩
    · rw [← pyAbs_eq_abs, ← hmc]
      exact hmt
    · intro x hx
      rw [← pyAbs_eq_abs, ← pyAbs_eq_abs, ← hmc]
      exact hall x hx
    · unfold toggle_keyframe_selection
      rw [heq]

/-- Witness for C9: keyframes `[3, 7]`, click at `t = 3.01`, empty tag set:
keyframe 3 is matched and toggled in. -/
theorem C9_witness :
    (∃ kf ∈ ([3, 7] : List ℚ), |kf - 301/100| < 1/10) ∧
    (∃ c, c ∈ ([3, 7] : List ℚ) ∧ |c - 301/100| < 1/10 ∧
      (∀ kf ∈ ([3, 7] : List ℚ), |c - 301/100| ≤ |kf - 301/100|) ∧
      toggle_keyframe_selection ⟨[3, 7], ∅⟩ (301/100) =
        (if c ∈ (∅ : Finset ℚ)
          then { keyframes := [3, 7], selected_keyframes := (∅ : Finset ℚ).erase c }
          else { keyframes := [3, 7], selected_keyframes := insert c (∅ : Finset ℚ) }, true)) := by
  have h3 : |(3:ℚ) - 301/100| < 1/10 := by
    have he : (3:ℚ) - 301/100 = -(1/100) := by norm_num
    rw [he, abs_neg, abs_of_nonneg (by norm_num : (0:ℚ) ≤ 1/100)]
    norm_num
  have hex : ∃ kf ∈ ([3, 7] : List ℚ), |kf - 301/100| < 1/10 :=
    ⟨3, List.mem_cons_self 3 [7], h3⟩
  exact ⟨hex, (C9_toggle_keyframe_tag ⟨[3, 7], ∅⟩ (301/100)).2 hex⟩

/-! ## Progress parsing (`ffmpeg_utils.py:164-182`, `223-229`; regex
`FFMPEG_TIME_REGEX = r"time=(\d{2}:\d{2}:\d{2}\.\d{2,})"`, `app_config.py:83`) -/

/-- Python `str.split(sep)` with an explicit one-character separator
(splitting the empty string yields one empty part, separators are not
collapsed). -/
def pySplit (sep : Char) : List Char → List (List Char)
  | [] => [[]]
  | c :: cs =>
    if c = sep then [] :: pySplit sep cs
    else
      match pySplit sep cs with
      | p :: ps => (c :: p) :: ps
      | [] => [[c]]

/-- Numeric value of a decimal digit character. -/
def digitVal (c : Char) : ℕ := c.toNat - '0'.toNat

/-- Value of a decimal digit string (0 for the empty string, as needed for
Python `float("12.")` and `float(".5")`). -/
def natValDigits (l : List Char) : ℕ := l.foldl (fun acc c => 10 * acc + digitVal c) 0

/-- All characters are decimal digits. -/
def allDigits (l : List Char) : Bool := l.all Char.isDigit

/-- Python `int(s)` restricted to optionally signed decimal digit strings;
every other string raises `ValueError`, modelled as `none`. -/
def pyInt : List Char → Option ℤ
  | [] => none
  | c :: rest =>
    if c = '-' then
      if rest ≠ [] ∧ allDigits rest = true then some (-(natValDigits rest : ℤ)) else none
    else if c = '+' then
      if rest ≠ [] ∧ allDigits rest = true then some ((natValDigits rest : ℤ)) else none
    else
      if allDigits (c :: rest) = true then some ((natValDigits (c :: rest) : ℤ)) else none

/-- The unsigned body of Python `float(s)` in plain decimal notation
(`digits`, `digits.digits`, `digits.` or `.digits`); at least one digit must
be present.  Exponent and special forms never occur in ffmpeg time fragments
and are not modelled. -/
def parseDecimal (l : List Char) : Option ℚ :=
  match pySplit '.' l with
  | [a] => if a ≠ [] ∧ allDigits a = true then some ((natValDigits a : ℚ)) else none
  | [a, b] =>
    if (a ≠ [] ∨ b ≠ []) ∧ allDigits a = true ∧ allDigits b = true then
      some ((natValDigits a : ℚ) + (natValDigits b : ℚ) / 10 ^ b.length)
    else none
  | _ => none

/-- Python `float(s)` with an optional sign. -/
def pyFloat : List Char → Option ℚ
  | [] => none
  | c :: rest =>
    if c = '-' then (parseDecimal rest).map (fun q => -q)
    else if c = '+' then parseDecimal rest
    else parseDecimal (c :: rest)

/-- Model of `time_str_to_seconds` (`ffmpeg_utils.py:164-182`): split on `':'`,
tolerate 1-3 components (`SS`, `MM:SS`, `HH:MM:SS`, each with optional
fractional seconds), convert as `h*3600 + m*60 + s`; a parse failure or more
than 3 components yields 0.0 without raising. -/
def time_str_to_seconds (l : List Char) : ℚ :=
  match pySplit ':' l with
  | [p0, p1, p2] =>
    match pyInt p0, pyInt p1, pyFloat p2 with
    | some h, some m, some s => (h : ℚ) * 3600 + (m : ℚ) * 60 + s
    | _, _, _ => 0
  | [p0, p1] =>
    match pyInt p0, pyFloat p1 with
    | some m, some s => (m : ℚ) * 60 + s
    | _, _ => 0
  | [p0] =>
    match pyFloat p0 with
    | some s => s
    | none => 0
  | _ => 0

/-- Maximal run of decimal digits at the head of the list (the greedy
`\d{2,}` tail of the regex). -/
def takeDigits : List Char → List Char
  | [] => []
  | c :: cs => if c.isDigit then c :: takeDigits cs else []

/-- Match group 1 of `FFMPEG_TIME_REGEX`, i.e. `\d{2}:\d{2}:\d{2}\.\d{2,}`,
at the head of the list. -/
def matchTimeGroup (l : List Char) : Option (List Char) :=
  match l with
  | h1 :: h2 :: ':' :: m1 :: m2 :: ':' :: s1 :: s2 :: '.' :: rest =>
    if h1.isDigit = true ∧ h2.isDigit = true ∧ m1.isDigit = true ∧ m2.isDigit = true ∧
        s1.isDigit = true ∧ s2.isDigit = true ∧ 2 ≤ (takeDigits rest).length then
      some ([h1, h2, ':', m1, m2, ':', s1, s2, '.'] ++ takeDigits rest)
    else none
  | _ => none

/-- The regex `time=(...)` applied at one scan position: the literal `time=`
followed by a successful group match. -/
def timeAt (l : List Char) : Option (List Char) :=
  match l with
  | 't' :: 'i' :: 'm' :: 'e' :: '=' :: rest => matchTimeGroup rest
  | _ => none

/-- Model of `re.search(FFMPEG_TIME_REGEX, line).group(1)`
(`ffmpeg_utils.py:224-226`): left-to-right scan, first position whose match
succeeds wins. -/
def searchTimeToken : List Char → Option (List Char)
  | [] => none
  | c :: cs =>
    match timeAt (c :: cs) with
    | some tok => some tok
    | none => searchTimeToken cs

/-- Progress extraction from one ffmpeg output line
(`ffmpeg_utils.py:223-229`): when the time regex matches, the percentage
handed to the callback is `min(100, int(elapsed / total_duration * 100))`,
together with the matched time string.  The surrounding code only runs this
when `total_duration > 0`. -/
def ffmpeg_progress_of_line (line : List Char) (total_duration : ℚ) :
    Option (ℤ × List Char) :=
  match searchTimeToken line with
  | none => none
  | some tok =>
    some (min 100 (pyTrunc (time_str_to_seconds tok / total_duration * 100)), tok)

theorem takeDigits_digits : ∀ l : List Char, ∀ c ∈ takeDigits l, c.isDigit = true := by
  intro l
  induction l with
  | nil => intro c hc; cases hc
  | cons x xs ih =>
    intro c hc
    unfold takeDigits at hc
    by_cases hx : x.isDigit
    · rw [if_pos hx] at hc
      rcases List.mem_cons.mp hc with h | h
      · exact h ▸ hx
      · exact ih c h
    · rw [if_neg hx] at hc
      cases hc

/-- Character classification of a matched time token: digits, `':'` or `'.'`. -/
def timeTokChar (c : Char) : Prop := c.isDigit = true ∨ c = ':' ∨ c = '.'

theorem matchTimeGroup_chars {l tok : List Char} (h : matchTimeGroup l = some tok) :
    ∀ c ∈ tok, timeTokChar c := by
  unfold matchTimeGroup at h
  split at h
  · rename_i h1 h2 m1 m2 s1 s2 rest
    split at h
    · rename_i hcond
      obtain ⟨hd1, hd2, hd3, hd4, hd5, hd6, _⟩ := hcond
      injection h with h
      subst h
      intro c hc
      rcases List.mem_append.mp hc with hm | hm
      · simp only [List.mem_cons, List.not_mem_nil, or_false] at hm
        rcases hm with rfl | rfl | rfl | rfl | rfl | rfl | rfl | rfl | rfl
        · exact Or.inl hd1
        · exact Or.inl hd2
        · exact Or.inr (Or.inl rfl)
        · exact Or.inl hd3
        · exact Or.inl hd4
        · exact Or.inr (Or.inl rfl)
        ·exact Or.inl hd5
        · exact Or.inl hd6
        · exact Or.inr (Or.inr rfl)
      · exact Or.inl (takeDigits_digits _ c hm)
    · exact absurd h (by simp)
  · exact absurd h (by simp)

theorem timeAt_chars {l tok : List Char} (h : timeAt l = some tok) :
    ∀ c ∈ tok, timeTokChar c := by
  unfold timeAt at h
  split at h
  · exact matchTimeGroup_chars h
  · exact absurd h (by simp)

theorem searchTimeToken_chars :
    ∀ l tok : List Char, searchTimeToken l = some tok → ∀ c ∈ tok, timeTokChar c := by
  intro l
  induction l with
  | nil => intro tok h; exact absurd h (by simp [searchTimeToken])
  | cons x xs ih =>
    intro tok h
    unfold searchTimeToken at h
    split at h
    · rename_i heq
      injection h with h
      subst h
      exact timeAt_chars heq
    · exact ih tok h

theorem pySplit_subset (sep : Char) :
    ∀ l : List Char, ∀ p ∈ pySplit sep l, ∀ c ∈ p, c ∈ l := by
  intro l
  induction l with
  | nil =>
    intro p hp c hc
    unfold pySplit at hp
    have : p = [] := List.mem_singleton.mp hp
    subst this
    cases hc
  | cons x xs ih =>
    intro p hp c hc
    unfold pySplit at hp
    by_cases hx : x = sep
    · rw [if_pos hx] at hp
      rcases List.mem_cons.mp hp with h | h
      · subst h; cases hc
      · exact List.mem_cons_of_mem x (ih p h c hc)
    · rw [if_neg hx] at hp
      cases hsp : pySplit sep xs with
      | nil =>
        rw [hsp] at hp
        have hp' : p = [x] := List.mem_singleton.mp hp
        subst hp'
        have hcx : c = x := List.mem_singleton.mp hc
        exact hcx ▸ List.mem_cons_self x xs
      | cons q qs =>
        rw [hsp] at hp
        rcases List.mem_cons.mp hp with h | h
        · subst h
          rcases List.mem_cons.mp hc with h2 | h2
          · exact h2 ▸ List.mem_cons_self x xs
          · exact List.mem_cons_of_mem x (ih q (hsp ▸ List.mem_cons_self q qs) c h2)
        · exact List.mem_cons_of_mem x (ih p (hsp ▸ List.mem_cons_of_mem q h) c hc)

theorem pyInt_nonneg {l : List Char} (h : ∀ c ∈ l, c ≠ '-') :
    ∀ z : ℤ, pyInt l = some z → 0 ≤ z := by
  intro z hz
  unfold pyInt at hz
  cases l with
  | nil => cases hz
  | cons c rest =>
    dsimp only at hz
    have hc : c ≠ '-' := h c (List.mem_cons_self c rest)
    rw [if_neg hc] at hz
    by_cases hp : c = '+'
    · rw [if_pos hp] at hz
      split at hz
      · injection hz with hz
        subst hz
        exact Int.natCast_nonneg _
      · cases hz
    · rw [if_neg hp] at hz
      split at hz
      · injection hz with hz
        subst hz
        exact Int.natCast_nonneg _
      · cases hz

theorem parseDecimal_nonneg :
    ∀ l : List Char, ∀ q : ℚ, parseDecimal l = some q → 0 ≤ q := by
  intro l q hq
  unfold parseDecimal at hq
  split at hq
  · split at hq
    · injection hq with hq
      subst hq
      positivity
    · cases hq
  · split at hq
    · injection hq with hq
      subst hq
      positivity
    · cases hq
  · cases hq

theorem pyFloat_nonneg {l : List Char} (h : ∀ c ∈ l, c ≠ '-') :
    ∀ q : ℚ, pyFloat l = some q → 0 ≤ q := by
  intro q hq
  unfold pyFloat at hq
  cases l with
  | nil => cases hq
  | cons c rest =>
    dsimp only at hq
    have hc : c ≠ '-' := h c (List.mem_cons_self c rest)
    rw [if_neg hc] at hq
    by_cases hp : c = '+'
    · rw [if_pos hp] at hq
      exact parseDecimal_nonneg rest q hq
    · rw [if_neg hp] at hq
      exact parseDecimal_nonneg (c :: rest) q hq

theorem time_str_nonneg {l : List Char} (h : ∀ c ∈ l, c ≠ '-') :
    0 ≤ time_str_to_seconds l := by
  unfold time_str_to_seconds
  have hsub : ∀ p ∈ pySplit ':' l, ∀ c ∈ p, c ≠ '-' :=
    fun p hp c hc => h c (pySplit_subset ':' l p hp c hc)
  split
  · rename_i p0 p1 p2 hsp
    have h0 := hsub p0 (hsp ▸ List.mem_cons_self p0 [p1, p2])
    have h1 := hsub p1 (hsp ▸ List.mem_cons_of_mem p0 (List.mem_cons_self p1 [p2]))
    have h2 := hsub p2 (hsp ▸ List.mem_cons_of_mem p0 (List.mem_cons_of_mem p1
      (List.mem_cons_self p2 [])))
    split
    · rename_i hv hm hs
      have := pyInt_nonneg h0 _ hv
      have := pyInt_nonneg h1 _ hm
      have := pyFloat_nonneg h2 _ hs
      have c0 : (0:ℚ) ≤ _ := Int.cast_nonneg.mpr (pyInt_nonneg h0 _ hv)
      positivity
    · exact le_rfl
  · rename_i p0 p1 hsp
    have h0 := hsub p0 (hsp ▸ List.mem_cons_self p0 [p1])
    have h1 := hsub p1 (hsp ▸ List.mem_cons_of_mem p0 (List.mem_cons_self p1 []))
    split
    · rename_i hv hs
      have := pyInt_nonneg h0 _ hv
      have := pyFloat_nonneg h1 _ hs
      positivity
    · exact le_rfl
  · rename_i p0 hsp
    have h0 := hsub p0 (hsp ▸ List.mem_cons_self p0 [])
    split
    · rename_i hs
      exact pyFloat_nonneg h0 _ hs
    · exact le_rfl
  · exact le_rfl

theorem timeTokChar_ne_minus {c : Char} (h : timeTokChar c) : c ≠ '-' := by
  intro hc
  subst hc
  rcases h with h | h | h
  · exact absurd h (by decide)
  · exact absurd h (by decide)
  · exact absurd h (by decide)

theorem pyFloat_2345 : pyFloat ("23.45".toList) = some ((23:ℚ) + 45/100) := by
  rw [show ("23.45".toList) = ['2', '3', '.', '4', '5'] from by decide]
  unfold pyFloat
  dsimp only
  rw [if_neg (by decide), if_neg (by decide)]
  unfold parseDecimal
  rw [show pySplit '.' ['2', '3', '.', '4', '5'] = [['2', '3'], ['4', '5']] from by decide]
  dsimp only
  rw [if_pos (by decide)]
  rw [show natValDigits ['2', '3'] = 23 from by decide,
    show natValDigits ['4', '5'] = 45 from by decide,
    show (['4', '5'] : List Char).length = 2 from by decide]
  push_cast
  norm_num

theorem time_conv_hms :
    time_str_to_seconds ("00:01:23.45".toList) = 0 * 3600 + 1 * 60 + ((23:ℚ) + 45/100) := by
  unfold time_str_to_seconds
  rw [show pySplit ':' ("00:01:23.45".toList) = [("00".toList), ("01".toList), ("23.45".toList)]
    from by decide]
  dsimp only
  rw [show pyInt ("00".toList) = some 0 from by decide,
    show pyInt ("01".toList) = some 1 from by decide, pyFloat_2345]
  push_cast
  norm_num

theorem time_conv_ms :
    time_str_to_seconds ("01:23.45".toList) = 1 * 60 + ((23:ℚ) + 45/100) := by
  unfold time_str_to_seconds
  rw [show pySplit ':' ("01:23.45".toList) = [("01".toList), ("23.45".toList)] from by decide]
  dsimp only
  rw [show pyInt ("01".toList) = some 1 from by decide, pyFloat_2345]
  push_cast
  norm_num

theorem time_conv_s :
    time_str_to_seconds ("23.45".toList) = (23:ℚ) + 45/100 := by
  unfold time_str_to_seconds
  rw [show pySplit ':' ("23.45".toList) = [("23.45".toList)] from by decide]
  dsimp only
  rw [pyFloat_2345]

/-- C7: for every line containing a regex time token and every target
duration > 0, the reported percentage is
`clamp(0, 100, floor(elapsed / target * 100))` where `elapsed` is the matched
token converted by `time_str_to_seconds`; the converter computes
`h*3600 + m*60 + s`, tolerates 1-3 colon-separated components, and yields 0
for unparsable fragments without raising; in particular the line
`"frame=120 fps=30 time=00:01:23.45 bitrate=..."` against target 200.0
yields percentage 41. -/
theorem C7_progress_parsing :
    (∀ (line : List Char) (target : ℚ) (tok : List Char), 0 < target →
        searchTimeToken line = some tok →
        ffmpeg_progress_of_line line target =
          some (max 0 (min 100 ⌊time_str_to_seconds tok / target * 100⌋), tok)) ∧
    time_str_to_seconds ("00:01:23.45".toList) = 0 * 3600 + 1 * 60 + ((23:ℚ) + 45/100) ∧
    time_str_to_seconds ("01:23.45".toList) = 1 * 60 + ((23:ℚ) + 45/100) ∧
    time_str_to_seconds ("23.45".toList) = (23:ℚ) + 45/100 ∧
    time_str_to_seconds ("ab".toList) = 0 ∧
    time_str_to_seconds ("1:2:3:4".toList) = 0 ∧
    ffmpeg_progress_of_line ("frame=120 fps=30 time=00:01:23.45 bitrate=...".toList) 200 =
      some (41, "00:01:23.45".toList) := by
  refine ⟨?_, time_conv_hms, time_conv_ms, time_conv_s, by decide, by decide, ?_⟩
  · intro line target tok htarget hsearch
    unfold ffmpeg_progress_of_line
    rw [hsearch]
    dsimp only
    have hnn : 0 ≤ time_str_to_seconds tok :=
      time_str_nonneg (fun c hc =>
        timeTokChar_ne_minus (searchTimeToken_chars line tok hsearch c hc))
    have hval : 0 ≤ time_str_to_seconds tok / target * 100 :=
      mul_nonneg (div_nonneg hnn htarget.le) (by norm_num)
    have hfloor : (0:ℤ) ≤ ⌊time_str_to_seconds tok / target * 100⌋ :=
      Int.floor_nonneg.mpr hval
    rw [pyTrunc_eq_floor hval,
      max_eq_right (le_min (by norm_num) hfloor)]
  · unfold ffmpeg_progress_of_line
    rw [show searchTimeToken ("frame=120 fps=30 time=00:01:23.45 bitrate=...".toList) =
        some ("00:01:23.45".toList) from by decide]
    dsimp only
    rw [time_conv_hms]
    rw [show (0 * 3600 + 1 * 60 + ((23:ℚ) + 45/100)) / 200 * 100 = 1669/40 from by norm_num]
    rw [pyTrunc_eq_floor (by norm_num : (0:ℚ) ≤ 1669/40)]
    rw [show ⌊(1669:ℚ)/40⌋ = 41 from by norm_num]
    rw [min_eq_right (by norm_num : (41:ℤ) ≤ 100)]

/-- Witness for C7: the universally quantified percentage clause applied to
the example line with target 200. -/
theorem C7_witness :
    (0:ℚ) < 200 ∧
    ffmpeg_progress_of_line ("frame=120 fps=30 time=00:01:23.45 bitrate=...".toList) 200 =
      some (max 0 (min 100
        ⌊time_str_to_seconds ("00:01:23.45".toList) / 200 * 100⌋), "00:01:23.45".toList) := by
  refine ⟨by norm_num, ?_⟩
  exact C7_progress_parsing.1 ("frame=120 fps=30 time=00:01:23.45 bitrate=...".toList) 200
    ("00:01:23.45".toList) (by norm_num) (by decide)

/-! ## Encode-task executor (`worker_threads.py`, `VideoProcessorWorker.run`) -/

/-- An encode task as the executor sees it (task dicts built in
`main.py:639-741`): a single cut, or a concatenation over a number of
segments, with its output path. -/
inductive PTask where
  | singleCut (out : String)
  | concat (out : String) (nsegs : ℕ)
deriving DecidableEq

/-- The `VideoProcessorWorker` signals that matter here:
`segment_processed(i, total, path)`, `finished(msg)` and `error(msg)`
(`worker_threads.py:84-87`).  `progress_update` emissions are omitted. -/
inductive Ev where
  | segDone (idx total : ℕ) (out : String)
  | fin (msg : String)
  | err (msg : String)
deriving DecidableEq

def isSegDone : Ev → Bool
  | .segDone _ _ _ => true
  | _ => false

/-- External behaviour driving one run: from which flag read onward the
cancellation flag is observed set (the flag is set once and never cleared,
`worker_threads.py:268-269`), which external encoder invocations fail, and
the diagnostic text a failed invocation produces. -/
structure ExecEnv where
  cancelFrom : Option ℕ
  invFails : ℕ → Bool
  diag : ℕ → String

/-- Executor bookkeeping: number of flag reads so far, number of encoder
invocations so far, emitted signals, whether `temp_concat_dir` has been
assigned (`worker_threads.py:126`), and whether that directory currently
exists on disk (fresh process: it does not). -/
structure ExecSt where
  checks : ℕ
  invs : ℕ
  evs : List Ev
  tempDirSet : Bool
  tempDirExists : Bool
deriving DecidableEq

/-- Read `self._is_cancelled` (`worker_threads.py:101`, `134`). -/
def readCancel (env : ExecEnv) (st : ExecSt) : Bool × ExecSt :=
  (match env.cancelFrom with
    | some n => decide (n ≤ st.checks)
    | none => false,
   { st with checks := st.checks + 1 })

/-- Run one external encoder invocation; returns success, the updated state
and the diagnostic text in case of failure. -/
def runInvocation (env : ExecEnv) (st : ExecSt) : Bool × ExecSt × String :=
  (! env.invFails st.invs, { st with invs := st.invs + 1 }, env.diag st.invs)

inductive StepOut where
  | ok (st : ExecSt)
  | halt (st : ExecSt)
deriving DecidableEq

/-- State carried by either outcome. -/
def stOf : StepOut → ExecSt
  | .ok st => st
  | .halt st => st

/-- The per-segment cutting loop of a concat task
(`worker_threads.py:133-169`): before each segment cut the cancellation flag
is read; if set, `OperationCancelledError("Cancelled during segment cutting
for concat.")` is raised, caught at `worker_threads.py:250` and emitted on the
`error` signal.  A failed cut raises `FfmpegProcessingError` with the
`Failed to cut segment {i+1}: ...` text (`worker_threads.py:169`). -/
def cutSegsFrom (env : ExecEnv) (segIdx : ℕ) : ℕ → ExecSt → StepOut
  | 0, st => .ok st
  | r + 1, st =>
    let p := readCancel env st
    if p.1 then
      .halt { p.2 with
        evs := p.2.evs ++ [.err ("Cancelled during segment cutting for concat.")] }
    else
      let q := runInvocation env p.2
      if q.1 then cutSegsFrom env (segIdx + 1) r q.2.1
      else .halt { q.2.1 with
        evs := q.2.1.evs ++
          [.err ("Failed to cut segment " ++ toString (segIdx + 1) ++ ": " ++ q.2.2)] }

/-- One iteration of the executor task loop (`worker_threads.py:106-240`): a
single cut is one invocation; a concat creates the temporary working
directory (`worker_threads.py:124-128`), cuts each segment, then runs the
final join invocation (failure text `Concatenation failed: ...`,
`worker_threads.py:208`).  On success `segment_processed(i+1, total, out)` is
emitted. -/
def runTask (env : ExecEnv) (i total : ℕ) (t : PTask) (st : ExecSt) : StepOut :=
  match t with
  | .singleCut out =>
    let q := runInvocation env st
    if q.1 then .ok { q.2.1 with evs := q.2.1.evs ++ [.segDone (i + 1) total out] }
    else .halt { q.2.1 with
      evs := q.2.1.evs ++ [.err ("Processing failed for " ++ out ++ ": " ++ q.2.2)] }
  | .concat out nsegs =>
    let st0 := { st with tempDirSet := true, tempDirExists := true }
    match cutSegsFrom env 0 nsegs st0 with
    | .halt st1 => .halt st1
    | .ok st1 =>
      let q := runInvocation env st1
      if q.1 then .ok { q.2.1 with evs := q.2.1.evs ++ [.segDone (i + 1) total out] }
      else .halt { q.2.1 with
        evs := q.2.1.evs ++ [.err ("Concatenation failed: " ++ q.2.2)] }

/-- The executor task loop (`worker_threads.py:100-104`): the cancellation
flag is read at the top of each iteration; when set,
`finished("Operation cancelled.")` is emitted and the run returns. -/
def runLoop (env : ExecEnv) (total : ℕ) : ℕ → List PTask → ExecSt → StepOut
  | _, [], st => .ok st
  | i, t :: rest, st =>
    let p := readCancel env st
    if p.1 then .halt { p.2 with evs := p.2.evs ++ [.fin ("Operation cancelled.")] }
    else
      match runTask env i total t p.2 with
      | .ok st2 => runLoop env total (i + 1) rest st2
      | .halt st2 => .halt st2

/-- The final success message (`worker_threads.py:243-248`). -/
def finalMsg (tasks : List PTask) : String :=
  match tasks with
  | [PTask.singleCut out] => out
  | [PTask.concat out _] => out
  | PTask.concat out _ :: _ => out
  | _ => "Successfully processed " ++ toString tasks.length ++ " segment(s)."

/-- The `finally` cleanup (`worker_threads.py:259-264`): when
`temp_concat_dir` was assigned and the directory exists, remove it; a removal
failure is printed and swallowed. -/
def cleanupTempDir (rmFails : Bool) (st : ExecSt) : ExecSt :=
  if st.tempDirSet = true ∧ st.tempDirExists = true then
    if rmFails then st else { st with tempDirExists := false }
  else st

/-- Model of `VideoProcessorWorker.run` (`worker_threads.py:95-264`): the task loop,
the `finished` emission on normal completion, and the `finally` cleanup on
every exit path.  `rmFails` says whether `shutil.rmtree` would fail. -/
def worker_run (env : ExecEnv) (tasks : List PTask) (rmFails : Bool) : ExecSt :=
  match runLoop env tasks.length 0 tasks ⟨0, 0, [], false, false⟩ with
  | .ok st => cleanupTempDir rmFails { st with evs := st.evs ++ [.fin (finalMsg tasks)] }
  | .halt st => cleanupTempDir rmFails st

/-- If the temporary directory exists, the `temp_concat_dir` variable was
assigned (it starts out unassigned and nonexistent, and `os.makedirs` sets
both). -/
def TDInv (st : ExecSt) : Prop := st.tempDirExists = true → st.tempDirSet = true

theorem cutSegs_fields (env : ExecEnv) :
    ∀ (r : ℕ) (st : ExecSt) (si : ℕ),
      (stOf (cutSegsFrom env si r st)).tempDirSet = st.tempDirSet ∧
      (stOf (cutSegsFrom env si r st)).tempDirExists = st.tempDirExists := by
  intro r
  induction r with
  | zero => intro st si; exact ⟨rfl, rfl⟩
  | succ r ih =>
    intro st si
    unfold cutSegsFrom
    by_cases hc : (readCancel env st).1
    · rw [if_pos hc]
      exact ⟨rfl, rfl⟩
    · rw [if_neg hc]
      by_cases hq : (runInvocation env (readCancel env st).2).1
      · rw [if_pos hq]
        exact ih _ _
      · rw [if_neg hq]
        exact ⟨rfl, rfl⟩

theorem runTask_inv (env : ExecEnv) (i total : ℕ) (t : PTask) (st : ExecSt)
    (h : TDInv st) : TDInv (stOf (runTask env i total t st)) := by
  cases t with
  | singleCut out =>
    unfold runTask
    dsimp only
    by_cases hq : (runInvocation env st).1
    · rw [if_pos hq]
      exact h
    · rw [if_neg hq]
      exact h
  | concat out nsegs =>
    unfold runTask
    dsimp only
    have hf := cutSegs_fields env nsegs
      { st with tempDirSet := true, tempDirExists := true } 0
    cases hres : cutSegsFrom env 0 nsegs { st with tempDirSet := true, tempDirExists := true } with
    | halt st1 =>
      rw [hres] at hf
      intro _
      exact hf.1
    | ok st1 =>
      rw [hres] at hf
      dsimp only
      by_cases hq : (runInvocation env st1).1
      · rw [if_pos hq]
        intro _
        exact hf.1
      · rw [if_neg hq]
        intro _
        exact hf.1

theorem runLoop_inv (env : ExecEnv) (total : ℕ) :
    ∀ (ts : List PTask) (i : ℕ) (st : ExecSt), TDInv st →
      TDInv (stOf (runLoop env total i ts st)) := by
  intro ts
  induction ts with
  | nil => intro i st h; exact h
  | cons t rest ih =>
    intro i st h
    unfold runLoop
    by_cases hc : (readCancel env st).1
    · rw [if_pos hc]
      exact h
    · rw [if_neg hc]
      have hstep : TDInv (stOf (runTask env i total t (readCancel env st).2)) :=
        runTask_inv env i total t _ h
      cases hres : runTask env i total t (readCancel env st).2 with
      | ok st2 =>
        rw [hres] at hstep
        exact ih (i + 1) st2 hstep
      | halt st2 =>
        rw [hres] at hstep
        exact hstep

theorem cleanup_evs (rmFails : Bool) (st : ExecSt) :
    (cleanupTempDir rmFails st).evs = st.evs := by
  unfold cleanupTempDir
  split
  · split
    · rfl
    · rfl
  · rfl

theorem cleanup_clean (st : ExecSt) (h : TDInv st) :
    (cleanupTempDir false st).tempDirExists = false := by
  unfold cleanupTempDir
  split
  · rename_i hc
    rw [if_neg (by simp)]
  · rename_i hc
    cases he : st.tempDirExists with
    | false => rfl
    | true => exact absurd ⟨h he, he⟩ hc

/-- C8: for every executor run (any task list, any cancellation point, any
invocation failures), the temporary working directory does not exist once the
run terminates whenever its removal succeeds, and a removal failure changes
no emitted signal (it is logged, never propagated as an error of the run). -/
theorem C8_temp_dir_cleanup (env : ExecEnv) (tasks : List PTask) :
    (worker_run env tasks false).tempDirExists = false ∧
    ∀ rm : Bool, (worker_run env tasks rm).evs = (worker_run env tasks false).evs := by
  have hinv : TDInv (stOf (runLoop env tasks.length 0 tasks ⟨0, 0, [], false, false⟩)) :=
    runLoop_inv env tasks.length tasks 0 ⟨0, 0, [], false, false⟩ (by intro h; cases h)
  constructor
  · unfold worker_run
    cases hres : runLoop env tasks.length 0 tasks ⟨0, 0, [], false, false⟩ with
    | ok st =>
      rw [hres] at hinv
      exact cleanup_clean _ (fun he => hinv he)
    | halt st =>
      rw [hres] at hinv
      exact cleanup_clean _ hinv
  · intro rm
    unfold worker_run
    cases hres : runLoop env tasks.length 0 tasks ⟨0, 0, [], false, false⟩ with
    | ok st => rw [cleanup_evs, cleanup_evs]
    | halt st => rw [cleanup_evs, cleanup_evs]

/-- Environment with the cancellation flag observed from flag-read `k` on, no
encoder failures. -/
def envCancelAt (k : ℕ) : ExecEnv := ⟨some k, fun _ => false, fun _ => ""⟩

def fiveOuts : List String := ["o1", "o2", "o3", "o4", "o5"]

/-- C3 counterexample: cancellation observed between task 2 and task 3 of a
5-task run terminates through the generic `finished` signal with the fixed
string "Operation cancelled." -- a report that carries no completed-task
count: cancelling after 2 completed tasks and after 3 completed tasks
produce identical terminal reports (the completed counts differ only in the
earlier per-segment signals).  Moreover, cancellation observed at the
per-segment checkpoint inside a concat task is emitted on the `error`
signal, so it is not a distinct non-error terminal state either. -/
theorem C3_counterexample :
    ((worker_run (envCancelAt 2) (fiveOuts.map PTask.singleCut) false).evs.getLast? =
      some (Ev.fin ("Operation cancelled."))) ∧
    ((worker_run (envCancelAt 3) (fiveOuts.map PTask.singleCut) false).evs.getLast? =
      (worker_run (envCancelAt 2) (fiveOuts.map PTask.singleCut) false).evs.getLast?) ∧
    ((worker_run (envCancelAt 2) (fiveOuts.map PTask.singleCut) false).evs.countP isSegDone
      = 2) ∧
    ((worker_run (envCancelAt 3) (fiveOuts.map PTask.singleCut) false).evs.countP isSegDone
      = 3) ∧
    ((worker_run (envCancelAt 1) [PTask.concat ("oc") 3] false).evs =
      [Ev.err ("Cancelled during segment cutting for concat.")]) := by
  refine ⟨?_, ?_, ?_, ?_, ?_⟩ <;> decide

theorem runLoop_cancel_singleCuts (env : ExecEnv) (total : ℕ) :
    ∀ (k : ℕ) (outs : List String) (i : ℕ) (st : ExecSt),
      env.cancelFrom = some (st.checks + k) →
      st.invs = st.checks →
      k < outs.length →
      (∀ j, st.checks ≤ j → j < st.checks + k → env.invFails j = false) →
      runLoop env total i (outs.map PTask.singleCut) st =
        .halt { checks := st.checks + k + 1, invs := st.invs + k,
                evs := st.evs ++ ((List.range k).map
                  (fun j => Ev.segDone (i + j + 1) total (outs.getD j ("")))) ++
                  [Ev.fin ("Operation cancelled.")],
                tempDirSet := st.tempDirSet, tempDirExists := st.tempDirExists } := by
  intro k
  induction k with
  | zero =>
    intro outs i st hc hinv hlen hfail
    cases outs with
    | nil => exact absurd hlen (by simp)
    | cons o rest =>
      unfold runLoop
      dsimp only [List.map]
      have hcc : (readCancel env st).1 = true := by
        unfold readCancel
        rw [hc]
        simp
      rw [if_pos hcc]
      unfold readCancel
      dsimp only
      congr 1
      simp [hinv]
  | succ k ih =>
    intro outs i st hc hinv hlen hfail
    cases outs with
    | nil => exact absurd hlen (by simp)
    | cons o rest =>
      unfold runLoop
      dsimp only [List.map]
      have hcc : (readCancel env st).1 = false := by
        unfold readCancel
        rw [hc]
        simp only [decide_eq_false_iff_not]
        omega
      rw [if_neg (by rw [hcc]; exact Bool.false_ne_true)]
      unfold runTask
      dsimp only
      have hq : (runInvocation env (readCancel env st).2).1 = true := by
        unfold runInvocation readCancel
        dsimp only
        rw [hinv, hfail st.checks le_rfl (by omega)]
        rfl
      rw [if_pos hq]
      unfold runInvocation readCancel
      dsimp only
      have hc' : env.cancelFrom = some (st.checks + 1 + k) := by
        rw [hc]
        congr 1
        omega
      have hrw := ih rest (i + 1)
        { checks := st.checks + 1, invs := st.invs + 1,
          evs := st.evs ++ [Ev.segDone (i + 1) total o],
          tempDirSet := st.tempDirSet, tempDirExists := st.tempDirExists }
        (by dsimp only; exact hc')
        (by dsimp only; rw [hinv])
        (by simpa using Nat.lt_of_succ_lt_succ (by simpa using hlen))
        (by
          intro j h1 h2
          dsimp only at h1 h2
          exact hfail j (by omega) (by omega))
      rw [hrw]
      dsimp only
      have hfun : (List.range k).map
          ((fun j => Ev.segDone (i + j + 1) total ((o :: rest).getD j (""))) ∘ Nat.succ) =
          (List.range k).map (fun j => Ev.segDone (i + 1 + j + 1) total (rest.getD j (""))) := by
        apply List.map_congr_left
        intro j _
        simp only [Function.comp_apply, List.getD_cons_succ]
        congr 1
        omega
      congr 1
      simp only [ExecSt.mk.injEq]
      refine ⟨by omega, by omega, ?_, trivial, trivial⟩
      rw [List.range_succ_eq_map, List.map_cons, List.map_map, hfun]
      simp only [List.getD_cons_zero, Nat.add_zero, List.append_assoc, List.cons_append,
        List.singleton_append, List.nil_append]

/-- C3 (amended): cancellation observed at the top of the task loop
terminates the run in a terminal state distinct from failure: the `finished`
(non-error) signal with the fixed message "Operation cancelled.", after
emitting exactly one segment-processed event per task completed before the
cancellation point (so the event stream, though not the terminal report
itself, conveys the completed count); no error signal is emitted.  Stated
for runs of single-cut tasks whose completed tasks succeed. -/
theorem C3_cancellation_reported (outs : List String) (k : ℕ) (env : ExecEnv) (rm : Bool)
    (hc : env.cancelFrom = some k) (hk : k < outs.length)
    (hfail : ∀ j, j < k → env.invFails j = false) :
    (worker_run env (outs.map PTask.singleCut) rm).evs =
      ((List.range k).map
        (fun j => Ev.segDone (j + 1) (outs.map PTask.singleCut).length (outs.getD j (""))))
        ++ [Ev.fin ("Operation cancelled.")] := by
  unfold worker_run
  have hloop := runLoop_cancel_singleCuts env (outs.map PTask.singleCut).length k outs 0
    ⟨0, 0, [], false, false⟩ (by simpa using hc) rfl hk
    (by intro j h1 h2; dsimp only at h1 h2; exact hfail j (by omega))
  rw [hloop]
  dsimp only
  rw [cleanup_evs]
  simp only [List.nil_append, Nat.zero_add]

/-- Witness for C3 at the 5-task run cancelled between tasks 2 and 3. -/
theorem C3_witness :
    (envCancelAt 2).cancelFrom = some 2 ∧ 2 < fiveOuts.length ∧
    (∀ j, j < 2 → (envCancelAt 2).invFails j = false) ∧
    (worker_run (envCancelAt 2) (fiveOuts.map PTask.singleCut) false).evs =
      ((List.range 2).map
        (fun j => Ev.segDone (j + 1) (fiveOuts.map PTask.singleCut).length (fiveOuts.getD j (""))))
        ++ [Ev.fin ("Operation cancelled.")] :=
  ⟨rfl, by decide, fun j _ => rfl,
    C3_cancellation_reported fiveOuts 2 (envCancelAt 2) false rfl (by decide) (fun j _ => rfl)⟩

/-- Witness for C6: a concrete begin/end sequence committing one range. -/
theorem C6_witness :
    ((([SelOp.beginMark 2, SelOp.endMark 5].foldl applySelOp initState).selections).Sorted
      (fun a b => a.1 ≤ b.1)) ∧
    ∀ r ∈ ([SelOp.beginMark 2, SelOp.endMark 5].foldl applySelOp initState).selections,
      r.1 < r.2 :=
  C6_selection_invariant [SelOp.beginMark 2, SelOp.endMark 5]

/-- Witness for C8: a concrete run with a concat task cancelled mid-segments. -/
theorem C8_witness :
    (worker_run (envCancelAt 1) [PTask.concat ("oc") 3] false).tempDirExists = false ∧
    (worker_run (envCancelAt 1) [PTask.concat ("oc") 3] true).evs =
      (worker_run (envCancelAt 1) [PTask.concat ("oc") 3] false).evs :=
  ⟨(C8_temp_dir_cleanup (envCancelAt 1) [PTask.concat ("oc") 3]).1,
   (C8_temp_dir_cleanup (envCancelAt 1) [PTask.concat ("oc") 3]).2 true⟩
